import Mathlib

/-!
Verification of the Fernet token scheme (`cryptography/fernet.py`).

The file shallowly embeds the module: byte strings become `List Nat`,
Python exceptions become explicit error values, and the external
cryptographic primitives (AES block cipher, HMAC-SHA256, URL-safe base64),
which the repository pulls from `cryptography.hazmat` and the standard
library, are abstracted into a `Backend` record of functions, with the
CBC mode chaining and PKCS7 padding written out concretely.
-/

deriving instance DecidableEq for Except

namespace FernetSpec

/-- Byte strings: each entry is one byte value. -/
abbrev Bytes := List Nat

/-- Outcomes of `encrypt` / `decrypt` that are visible to a caller:
`invalidToken` is the `InvalidToken` exception, `typeError` the `TypeError`
raised on unicode input, `indexError` an uncaught `IndexError`, and
`structError` an uncaught `struct.error`. -/
inductive PyErr where
  | invalidToken
  | typeError
  | indexError
  | structError
  deriving DecidableEq

/-- Outcomes of `Fernet.__init__`: `valueError` is the wrong-key-length
`ValueError`, `b64Error` an uncaught `binascii.Error` from decoding. -/
inductive InitErr where
  | valueError
  | b64Error
  deriving DecidableEq

/-- A value passed from Python: either raw bytes or a unicode string
(`six.text_type`). -/
inductive PyData where
  | bytes (b : Bytes)
  | text (s : String)

/-- Modelled from the spec: the external primitives of section 1 / section 6
(block cipher, keyed MAC, URL-safe base64 codec), which live outside this
repository's sources.  `encBlock`/`decBlock` take the cipher key and one
16-byte block; `hmacSHA256` takes the signing key and a message and returns
the tag; the base64 pair encodes bytes to token text and partially decodes
back. -/
structure Backend where
  encBlock : Bytes → Bytes → Bytes
  decBlock : Bytes → Bytes → Bytes
  hmacSHA256 : Bytes → Bytes → Bytes
  b64encode : Bytes → Bytes
  b64decode : Bytes → Option Bytes

/-- Modelled from the spec: PKCS7 padding at AES block size (128 bits =
16 bytes), as used by `padding.PKCS7(algorithms.AES.block_size)`.  Appends
`n = 16 - len % 16` copies of the byte `n`. -/
def pad16 (b : Bytes) : Bytes :=
  b ++ List.replicate (16 - b.length % 16) (16 - b.length % 16)

/-- Modelled from the spec: PKCS7 unpadding.  Fails (`none`, the
library's `ValueError`) unless the data is a nonempty multiple of the
block size whose last byte `n` lies in 1..16 and whose last `n` bytes all
equal `n`. -/
def unpad16 (d : Bytes) : Option Bytes :=
  if d.length % 16 = 0 then
    match d.getLast? with
    | none => none
    | some n =>
      if 1 ≤ n ∧ n ≤ 16 ∧ d.drop (d.length - n) = List.replicate n n then
        some (d.take (d.length - n))
      else none
  else none

/-- Bytewise xor of two byte strings (truncating at the shorter). -/
def xorBytes (a b : Bytes) : Bytes := List.zipWith (fun x y => x ^^^ y) a b

/-- Split a byte string into consecutive 16-byte chunks; the fuel is an
upper bound on the length, so recursion is structural. -/
def chunks16Go : Nat → Bytes → List Bytes
  | 0, _ => []
  | _ + 1, [] => []
  | fuel + 1, x :: xs => ((x :: xs).take 16) :: chunks16Go fuel ((x :: xs).drop 16)

/-- Split a byte string into consecutive 16-byte chunks (the last chunk may
be short when the length is not a multiple of 16). -/
def chunks16 (xs : Bytes) : List Bytes := chunks16Go xs.length xs

/-- Modelled from the spec: CBC encryption chaining over a block cipher
`E`; `prev` is the previous ciphertext block (initially the iv). -/
def cbcEncAux (E : Bytes → Bytes → Bytes) (key : Bytes) : Bytes → List Bytes → List Bytes
  | _, [] => []
  | prev, b :: bs =>
    let c := E key (xorBytes prev b)
    c :: cbcEncAux E key c bs

/-- Modelled from the spec: CBC-mode encryption of a full byte string, as
performed by `Cipher(algorithms.AES(key), modes.CBC(iv)).encryptor()`. -/
def cbcEncrypt (E : Bytes → Bytes → Bytes) (key iv data : Bytes) : Bytes :=
  (cbcEncAux E key iv (chunks16 data)).flatten

/-- Modelled from the spec: CBC decryption chaining over the inverse block
cipher `D`. -/
def cbcDecAux (D : Bytes → Bytes → Bytes) (key : Bytes) : Bytes → List Bytes → List Bytes
  | _, [] => []
  | prev, c :: cs => xorBytes prev (D key c) :: cbcDecAux D key c cs

/-- Modelled from the spec: CBC-mode decryption; `decryptor.finalize()`
raises `ValueError` (here `none`) when the ciphertext is not a multiple of
the block size. -/
def cbcDecrypt (D : Bytes → Bytes → Bytes) (key iv data : Bytes) : Option Bytes :=
  if data.length % 16 = 0 then some ((cbcDecAux D key iv (chunks16 data)).flatten)
  else none

/-- Python `struct.pack(">Q", t)`: the 8-byte big-endian encoding of `t`. -/
def natToBe8 (t : Nat) : Bytes :=
  [t / 2 ^ 56 % 256, t / 2 ^ 48 % 256, t / 2 ^ 40 % 256, t / 2 ^ 32 % 256,
   t / 2 ^ 24 % 256, t / 2 ^ 16 % 256, t / 2 ^ 8 % 256, t % 256]

/-- Python `struct.unpack(">Q", bs)`: big-endian byte-string to natural number. -/
def beBytesToNat (bs : Bytes) : Nat := bs.foldl (fun acc b => acc * 256 + b) 0

/-- Constant `_MAX_CLOCK_SKEW = 60` (fernet.py line 33). -/
def _MAX_CLOCK_SKEW : Nat := 60

/-- The `Fernet` object state after `__init__`: `_signing_key = key[:16]`,
`_encryption_key = key[16:]`, `_backend` (fernet.py lines 47-49). -/
structure Fernet where
  _signing_key : Bytes
  _encryption_key : Bytes
  _backend : Backend

/-- Source `Fernet.__init__(key, backend)` (fernet.py lines 37-49): URL-safe
base64-decode the key (an uncaught `binascii.Error` propagates), require
decoded length exactly 32, then split into the two sub-keys. -/
def Fernet.init (B : Backend) (key : Bytes) : Except InitErr Fernet :=
  match B.b64decode key with
  | none => .error .b64Error
  | some k =>
    if k.length ≠ 32 then .error .valueError
    else .ok { _signing_key := k.take 16, _encryption_key := k.drop 16, _backend := B }

/-- Source `Fernet._encrypt_from_parts(data, current_time, iv)` (fernet.py lines
60-80): reject unicode plaintext with `TypeError`; PKCS7-pad; CBC-encrypt
under the encryption key and iv; assemble `b"\x80" + struct.pack(">Q",
current_time) + iv + ciphertext`; append the HMAC-SHA256 tag over those
bytes under the signing key; URL-safe base64-encode the whole.
`struct.pack(">Q", t)` raises `struct.error` when `t` does not fit in an
unsigned 64-bit word. -/
def Fernet._encrypt_from_parts (f : Fernet) (data : PyData) (current_time : Nat)
    (iv : Bytes) : Except PyErr Bytes :=
  match data with
  | .text _ => .error .typeError
  | .bytes d =>
    if current_time < 2 ^ 64 then
      let padded_data := pad16 d
      let ciphertext := cbcEncrypt f._backend.encBlock f._encryption_key iv padded_data
      let basic_parts := [0x80] ++ natToBe8 current_time ++ iv ++ ciphertext
      .ok (f._backend.b64encode
        (basic_parts ++ f._backend.hmacSHA256 f._signing_key basic_parts))
    else .error .structError

/-- Source `Fernet.encrypt(data)` (fernet.py lines 55-58), with the clock reading
and the 16 random iv bytes injected as parameters (spec section 9,
testability of randomness/time). -/
def Fernet.encrypt (f : Fernet) (data : PyData) (current_time : Nat)
    (iv : Bytes) : Except PyErr Bytes :=
  f._encrypt_from_parts data current_time iv

/-- The nested TTL test of fernet.py lines 102-104: with no TTL there is no
age check; with a TTL the token fails when `timestamp + ttl < current_time`. -/
def ttlExpired (ttl : Option Int) (timestamp current_time : Nat) : Bool :=
  match ttl with
  | none => false
  | some v => decide ((timestamp : Int) + v < (current_time : Int))

/-- Source `Fernet.decrypt(token, ttl)` (fernet.py lines 82-131), with the clock
reading injected as `current_time`.  Mirrors the source line by line:
unicode token raises `TypeError`; a base64 failure is caught and becomes
`InvalidToken`; `six.indexbytes(data, 0)` raises an uncaught `IndexError`
on empty data; a wrong version byte, a short timestamp slice
(`struct.error`), an expired TTL, excessive future clock skew, an HMAC
mismatch over `data[:-32]` versus `data[-32:]`, a CBC finalization error,
and a padding error each become `InvalidToken`. -/
def Fernet.decrypt (f : Fernet) (token : PyData) (ttl : Option Int)
    (current_time : Nat) : Except PyErr Bytes :=
  match token with
  | .text _ => .error .typeError
  | .bytes tok =>
    match f._backend.b64decode tok with
    | none => .error .invalidToken
    | some data =>
      match data.head? with
      | none => .error .indexError
      | some b0 =>
        if b0 ≠ 0x80 then .error .invalidToken
        else if ((data.drop 1).take 8).length ≠ 8 then .error .invalidToken
        else
          let timestamp := beBytesToNat ((data.drop 1).take 8)
          if ttlExpired ttl timestamp current_time then .error .invalidToken
          else if current_time + _MAX_CLOCK_SKEW < timestamp then .error .invalidToken
          else if f._backend.hmacSHA256 f._signing_key (data.take (data.length - 32)) ≠
              data.drop (data.length - 32) then .error .invalidToken
          else
            let iv := (data.drop 9).take 16
            let ciphertext := (data.take (data.length - 32)).drop 25
            match cbcDecrypt f._backend.decBlock f._encryption_key iv ciphertext with
            | none => .error .invalidToken
            | some plaintext_padded =>
              match unpad16 plaintext_padded with
              | none => .error .invalidToken
              | some unpadded => .ok unpadded

/-- Method `encrypt` as a state transformer on the `Fernet` object: the method
body (fernet.py lines 55-80) contains no assignment to any `self` field,
so the translated post-state is the input object unchanged. -/
def Fernet.encryptS (f : Fernet) (data : PyData) (current_time : Nat)
    (iv : Bytes) : Except PyErr Bytes × Fernet :=
  (f._encrypt_from_parts data current_time iv, f)

/-- Method `decrypt` as a state transformer on the `Fernet` object: the method
body (fernet.py lines 82-131) contains no assignment to any `self` field,
so the translated post-state is the input object unchanged. -/
def Fernet.decryptS (f : Fernet) (token : PyData) (ttl : Option Int)
    (current_time : Nat) : Except PyErr Bytes × Fernet :=
  (f.decrypt token ttl current_time, f)

/-- Modelled from the spec (section 4.2 step 5): the unsigned token head,
version byte `0x80`, 8-byte big-endian timestamp, iv, ciphertext, in that
order. -/
def specBasicParts (timestamp : Nat) (iv ciphertext : Bytes) : Bytes :=
  [0x80] ++ natToBe8 timestamp ++ iv ++ ciphertext

/-- Modelled from the spec (section 3, section 4.2): the complete token,
the URL-safe base64 encoding of the unsigned head followed by the
HMAC-SHA256 tag over it under the signing key. -/
def specToken (B : Backend) (sk ek P : Bytes) (timestamp : Nat) (iv : Bytes) : Bytes :=
  let ct := cbcEncrypt B.encBlock ek iv (pad16 P)
  let bp := specBasicParts timestamp iv ct
  B.b64encode (bp ++ B.hmacSHA256 sk bp)

/-- A concrete backend instance used for witnesses: identity block cipher,
constant 32-byte tag, identity base64 pair.  It satisfies every interface
hypothesis the theorems below assume. -/
def testBackend : Backend where
  encBlock := fun _ b => b
  decBlock := fun _ b => b
  hmacSHA256 := fun _ _ => List.replicate 32 0
  b64encode := fun x => x
  b64decode := fun x => some x

/-- A concrete `Fernet` instance over `testBackend`. -/
def testFernet : Fernet where
  _signing_key := List.replicate 16 0
  _encryption_key := List.replicate 16 1
  _backend := testBackend

/-! ### Arithmetic and list lemmas -/

theorem natToBe8_length (t : Nat) : (natToBe8 t).length = 8 := rfl

theorem beBytesToNat_natToBe8 (t : Nat) (h : t < 2 ^ 64) :
    beBytesToNat (natToBe8 t) = t := by
  simp only [natToBe8, beBytesToNat, List.foldl]
  omega

theorem xorBytes_cancel (a b : Bytes) (h : a.length = b.length) :
    xorBytes a (xorBytes a b) = b := by
  induction a generalizing b with
  | nil =>
    cases b with
    | nil => rfl
    | cons y b => simp at h
  | cons x a ih =>
    cases b with
    | nil => simp at h
    | cons y b =>
      simp only [List.length_cons, Nat.add_right_cancel_iff] at h
      simp only [xorBytes, List.zipWith_cons_cons]
      refine congrArg₂ _ ?_ (ih b h)
      rw [← Nat.xor_assoc, Nat.xor_self, Nat.zero_xor]

theorem xorBytes_length (a b : Bytes) :
    (xorBytes a b).length = min a.length b.length := by
  simp [xorBytes]

theorem chunks16Go_flatten (fuel : Nat) (xs : Bytes) (h : xs.length ≤ fuel) :
    (chunks16Go fuel xs).flatten = xs := by
  induction fuel generalizing xs with
  | zero =>
    cases xs with
    | nil => rfl
    | cons x xs => simp at h
  | succ fuel ih =>
    cases xs with
    | nil => rfl
    | cons x xs =>
      simp only [List.length_cons] at h
      simp only [chunks16Go, List.flatten_cons]
      rw [ih ((x :: xs).drop 16) (by simp only [List.length_drop, List.length_cons]; omega),
        List.take_append_drop]

theorem chunks16_flatten (xs : Bytes) : (chunks16 xs).flatten = xs :=
  chunks16Go_flatten xs.length xs le_rfl

theorem chunks16Go_mem_length (fuel : Nat) (xs : Bytes) (h : xs.length ≤ fuel)
    (hm : xs.length % 16 = 0) : ∀ c ∈ chunks16Go fuel xs, c.length = 16 := by
  induction fuel generalizing xs with
  | zero =>
    cases xs with
    | nil => intro c hc; simp [chunks16Go] at hc
    | cons x xs => simp at h
  | succ fuel ih =>
    cases xs with
    | nil => intro c hc; simp [chunks16Go] at hc
    | cons x xs =>
      intro c hc
      simp only [List.length_cons] at h hm
      have h16 : 16 ≤ xs.length + 1 := by omega
      simp only [chunks16Go, List.mem_cons] at hc
      rcases hc with hc | hc
      · subst hc
        simp only [List.length_take, List.length_cons]
        omega
      · exact ih ((x :: xs).drop 16)
          (by simp only [List.length_drop, List.length_cons]; omega)
          (by simp only [List.length_drop, List.length_cons]; omega) c hc

theorem chunks16_mem_length (xs : Bytes) (hm : xs.length % 16 = 0) :
    ∀ c ∈ chunks16 xs, c.length = 16 :=
  chunks16Go_mem_length xs.length xs le_rfl hm

theorem flatten_length_mod16 (l : List Bytes) (h : ∀ c ∈ l, c.length = 16) :
    l.flatten.length % 16 = 0 := by
  induction l with
  | nil => rfl
  | cons b l ih =>
    simp only [List.flatten_cons, List.length_append, h b (List.mem_cons_self b l)]
    have := ih (fun c hc => h c (List.mem_cons_of_mem b hc))
    omega

theorem chunks16Go_of_blocks (fuel : Nat) (l : List Bytes)
    (h : ∀ c ∈ l, c.length = 16) (hf : l.flatten.length ≤ fuel) :
    chunks16Go fuel l.flatten = l := by
  induction fuel generalizing l with
  | zero =>
    cases l with
    | nil => rfl
    | cons b l =>
      exfalso
      have hb := h b (List.mem_cons_self b l)
      simp only [List.flatten_cons, List.length_append, hb, Nat.le_zero] at hf
      omega
  | succ fuel ih =>
    cases l with
    | nil => rfl
    | cons b l =>
      have hb := h b (List.mem_cons_self b l)
      cases b with
      | nil => simp at hb
      | cons y ys =>
        simp only [List.flatten_cons, List.length_append, hb] at hf
        have ht : ((y :: ys) ++ l.flatten).take 16 = y :: ys := by
          rw [← hb]; exact List.take_left _ _
        have hd : ((y :: ys) ++ l.flatten).drop 16 = l.flatten := by
          rw [← hb]; exact List.drop_left _ _
        show ((y :: ys) ++ l.flatten).take 16 ::
            chunks16Go fuel (((y :: ys) ++ l.flatten).drop 16) = (y :: ys) :: l
        rw [ht, hd, ih l (fun c hc => h c (List.mem_cons_of_mem (y :: ys) hc)) (by omega)]

theorem chunks16_of_blocks (l : List Bytes) (h : ∀ c ∈ l, c.length = 16) :
    chunks16 l.flatten = l :=
  chunks16Go_of_blocks l.flatten.length l h le_rfl

/-! ### CBC mode lemmas -/

theorem cbcEncAux_mem_length (E : Bytes → Bytes → Bytes) (key : Bytes)
    (hE : ∀ b, b.length = 16 → (E key b).length = 16) (prev : Bytes)
    (blocks : List Bytes) (hprev : prev.length = 16)
    (hb : ∀ b ∈ blocks, b.length = 16) :
    ∀ c ∈ cbcEncAux E key prev blocks, c.length = 16 := by
  induction blocks generalizing prev with
  | nil => intro c hc; simp [cbcEncAux] at hc
  | cons b bs ih =>
    intro c hc
    simp only [cbcEncAux, List.mem_cons] at hc
    have hxb : (xorBytes prev b).length = 16 := by
      rw [xorBytes_length, hprev, hb b (List.mem_cons_self b bs)]
      simp
    rcases hc with hc | hc
    · rw [hc]; exact hE _ hxb
    · exact ih (E key (xorBytes prev b)) (hE _ hxb)
        (fun x hx => hb x (List.mem_cons_of_mem b hx)) c hc

theorem cbcDecAux_cbcEncAux (E D : Bytes → Bytes → Bytes) (key : Bytes)
    (hDE : ∀ b, b.length = 16 → D key (E key b) = b)
    (hE : ∀ b, b.length = 16 → (E key b).length = 16) (prev : Bytes)
    (blocks : List Bytes) (hprev : prev.length = 16)
    (hb : ∀ b ∈ blocks, b.length = 16) :
    cbcDecAux D key prev (cbcEncAux E key prev blocks) = blocks := by
  induction blocks generalizing prev with
  | nil => rfl
  | cons b bs ih =>
    have hb16 : b.length = 16 := hb b (List.mem_cons_self b bs)
    have hxb : (xorBytes prev b).length = 16 := by
      rw [xorBytes_length, hprev, hb16]; simp
    simp only [cbcEncAux, cbcDecAux]
    rw [hDE _ hxb, xorBytes_cancel prev b (by rw [hprev, hb16]),
      ih (E key (xorBytes prev b)) (hE _ hxb)
        (fun x hx => hb x (List.mem_cons_of_mem b hx))]

theorem cbcEncrypt_length_mod (E : Bytes → Bytes → Bytes) (key iv data : Bytes)
    (hE : ∀ b, b.length = 16 → (E key b).length = 16)
    (hiv : iv.length = 16) (hm : data.length % 16 = 0) :
    (cbcEncrypt E key iv data).length % 16 = 0 :=
  flatten_length_mod16 _
    (cbcEncAux_mem_length E key hE iv (chunks16 data) hiv (chunks16_mem_length data hm))

theorem cbcDecrypt_cbcEncrypt (E D : Bytes → Bytes → Bytes) (key iv data : Bytes)
    (hDE : ∀ b, b.length = 16 → D key (E key b) = b)
    (hE : ∀ b, b.length = 16 → (E key b).length = 16)
    (hiv : iv.length = 16) (hm : data.length % 16 = 0) :
    cbcDecrypt D key iv (cbcEncrypt E key iv data) = some data := by
  have hmem := cbcEncAux_mem_length E key hE iv (chunks16 data) hiv
    (chunks16_mem_length data hm)
  rw [cbcDecrypt, if_pos (cbcEncrypt_length_mod E key iv data hE hiv hm),
    cbcEncrypt, chunks16_of_blocks _ hmem,
    cbcDecAux_cbcEncAux E D key hDE hE iv (chunks16 data) hiv
      (chunks16_mem_length data hm),
    chunks16_flatten]

/-! ### PKCS7 padding lemmas -/

theorem pad16_length (b : Bytes) :
    (pad16 b).length = b.length + (16 - b.length % 16) := by
  simp [pad16]

theorem pad16_length_mod (b : Bytes) : (pad16 b).length % 16 = 0 := by
  rw [pad16_length]
  omega

theorem unpad16_pad16 (b : Bytes) : unpad16 (pad16 b) = some b := by
  have hmod : b.length % 16 < 16 := Nat.mod_lt _ (by norm_num)
  set n := 16 - b.length % 16 with hn
  have hn1 : 1 ≤ n := by omega
  have hn16 : n ≤ 16 := by omega
  have hlen : (pad16 b).length = b.length + n := pad16_length b
  have hmod0 : (pad16 b).length % 16 = 0 := pad16_length_mod b
  have hlast : (pad16 b).getLast? = some n := by
    rw [pad16, List.getLast?_append_of_ne_nil _ (by simp; omega), ← hn]
    obtain ⟨m, hm⟩ : ∃ m, n = m + 1 := ⟨n - 1, by omega⟩
    rw [hm, List.replicate_succ', List.getLast?_concat]
  have hdrop : (pad16 b).drop ((pad16 b).length - n) = List.replicate n n := by
    rw [hlen, Nat.add_sub_cancel, pad16]
    have := List.drop_left b (List.replicate n n)
    exact this
  have htake : (pad16 b).take ((pad16 b).length - n) = b := by
    rw [hlen, Nat.add_sub_cancel, pad16]
    exact List.take_left _ _
  rw [unpad16, if_pos hmod0, hlast]
  simp only [hn1, hn16, hdrop, and_self, if_true, htake, true_and]

/-! ### Encoder and decoder composition -/

theorem take_append_of_length (l₁ l₂ : List Nat) (n : Nat) (h : l₁.length = n) :
    (l₁ ++ l₂).take n = l₁ := by rw [← h]; exact List.take_left _ _

theorem drop_append_of_length (l₁ l₂ : List Nat) (n : Nat) (h : l₁.length = n) :
    (l₁ ++ l₂).drop n = l₂ := by rw [← h]; exact List.drop_left _ _

theorem encrypt_from_parts_eq (f : Fernet) (P : Bytes) (ts : Nat) (iv : Bytes)
    (hts : ts < 2 ^ 64) :
    f._encrypt_from_parts (.bytes P) ts iv =
      .ok (specToken f._backend f._signing_key f._encryption_key P ts iv) := by
  simp only [Fernet._encrypt_from_parts, specToken, specBasicParts, if_pos hts]

theorem decrypt_specToken (f : Fernet) (P iv : Bytes) (ts ct2 : Nat) (ttl : Option Int)
    (hB64 : ∀ x, f._backend.b64decode (f._backend.b64encode x) = some x)
    (hDE : ∀ b, b.length = 16 →
      f._backend.decBlock f._encryption_key (f._backend.encBlock f._encryption_key b) = b)
    (hElen : ∀ b, b.length = 16 → (f._backend.encBlock f._encryption_key b).length = 16)
    (hHlen : ∀ m, (f._backend.hmacSHA256 f._signing_key m).length = 32)
    (hiv : iv.length = 16) (hts : ts < 2 ^ 64) :
    f.decrypt (.bytes (specToken f._backend f._signing_key f._encryption_key P ts iv)) ttl ct2 =
      if ttlExpired ttl ts ct2 then .error .invalidToken
      else if ct2 + _MAX_CLOCK_SKEW < ts then .error .invalidToken
      else .ok P := by
  simp only [Fernet.decrypt, specToken, specBasicParts]
  rw [hB64]
  set A := natToBe8 ts with hA
  set ct := cbcEncrypt f._backend.encBlock f._encryption_key iv (pad16 P) with hctdef
  set mac := f._backend.hmacSHA256 f._signing_key ([0x80] ++ A ++ iv ++ ct) with hmacdef
  have hAlen : A.length = 8 := natToBe8_length ts
  have hmaclen : mac.length = 32 := hHlen _
  have h1 : List.head? ([128] ++ A ++ iv ++ ct ++ mac) = some 128 := rfl
  have h2 : List.take 8 (List.drop 1 ([128] ++ A ++ iv ++ ct ++ mac)) = A := by
    have ha : [128] ++ A ++ iv ++ ct ++ mac = 128 :: (A ++ (iv ++ (ct ++ mac))) := by
      simp [List.append_assoc]
    rw [ha, List.drop_succ_cons, List.drop_zero]
    exact take_append_of_length _ _ 8 hAlen
  have h3 : beBytesToNat A = ts := by rw [hA]; exact beBytesToNat_natToBe8 ts hts
  have h4 : List.take ((List.length ([128] ++ A ++ iv ++ ct ++ mac)) - 32)
      ([128] ++ A ++ iv ++ ct ++ mac) = [128] ++ A ++ iv ++ ct := by
    rw [List.length_append ([128] ++ A ++ iv ++ ct) mac, hmaclen, Nat.add_sub_cancel]
    exact List.take_left _ _
  have h5 : List.drop ((List.length ([128] ++ A ++ iv ++ ct ++ mac)) - 32)
      ([128] ++ A ++ iv ++ ct ++ mac) = mac := by
    rw [List.length_append ([128] ++ A ++ iv ++ ct) mac, hmaclen, Nat.add_sub_cancel]
    exact List.drop_left _ _
  have h6 : List.take 16 (List.drop 9 ([128] ++ A ++ iv ++ ct ++ mac)) = iv := by
    have ha : [128] ++ A ++ iv ++ ct ++ mac = ([128] ++ A) ++ (iv ++ (ct ++ mac)) := by
      simp [List.append_assoc]
    rw [ha, drop_append_of_length _ _ 9 (by simp [hAlen]),
      take_append_of_length _ _ 16 hiv]
  have h7 : List.drop 25 ([128] ++ A ++ iv ++ ct) = ct := by
    have ha : [128] ++ A ++ iv ++ ct = ([128] ++ A ++ iv) ++ ct := rfl
    rw [ha, drop_append_of_length _ _ 25 (by simp [hAlen, hiv])]
  have h8 : cbcDecrypt f._backend.decBlock f._encryption_key iv ct = some (pad16 P) := by
    rw [hctdef]
    exact cbcDecrypt_cbcEncrypt _ _ _ _ _ hDE hElen hiv (pad16_length_mod P)
  have h9 : unpad16 (pad16 P) = some P := unpad16_pad16 P
  simp only [h1, h2, h3, h4, h5, h6, h7, h8, h9, hAlen, ← hmacdef, ne_eq,
    not_true_eq_false, if_false]

/-! ### Claim theorems -/

/-- C1: for every binary plaintext `P` and key material, decrypting the
token produced by encrypting `P` (decoder clock at or after the encoder
clock, no TTL) returns exactly `P`, assuming the interface contracts of
the external primitives (base64 decode inverts encode, the block cipher
decrypts its own output, blocks and tags have their nominal sizes). -/
theorem roundtrip_decrypt_encrypt (f : Fernet) (P iv : Bytes) (ts ct2 : Nat) (tok : Bytes)
    (hB64 : ∀ x, f._backend.b64decode (f._backend.b64encode x) = some x)
    (hDE : ∀ b, b.length = 16 →
      f._backend.decBlock f._encryption_key (f._backend.encBlock f._encryption_key b) = b)
    (hElen : ∀ b, b.length = 16 → (f._backend.encBlock f._encryption_key b).length = 16)
    (hHlen : ∀ m, (f._backend.hmacSHA256 f._signing_key m).length = 32)
    (hiv : iv.length = 16) (hts : ts < 2 ^ 64) (hle : ts ≤ ct2)
    (henc : f.encrypt (.bytes P) ts iv = .ok tok) :
    f.decrypt (.bytes tok) none ct2 = .ok P := by
  rw [Fernet.encrypt, encrypt_from_parts_eq f P ts iv hts] at henc
  injection henc with htok
  subst htok
  rw [decrypt_specToken f P iv ts ct2 none hB64 hDE hElen hHlen hiv hts]
  simp only [ttlExpired, Bool.false_eq_true, if_false]
  rw [if_neg (by omega)]

/-- C1 witness: a concrete round trip over `testBackend`. -/
theorem roundtrip_decrypt_encrypt_witness :
    testFernet.decrypt
      (.bytes (specToken testBackend testFernet._signing_key
        testFernet._encryption_key [2, 3] 5 (List.replicate 16 0))) none 7 = .ok [2, 3] :=
  roundtrip_decrypt_encrypt testFernet [2, 3] (List.replicate 16 0) 5 7 _
    (fun _ => rfl) (fun _ _ => rfl) (fun _ hb => hb) (fun _ => rfl) rfl
    (by norm_num) (by norm_num) rfl

/-- C2: evaluation at the failing input.  A token that base64-decodes to
the empty byte string (the empty token does) makes `decrypt` raise an
uncaught `IndexError` from `six.indexbytes(data, 0)` instead of the
`InvalidToken` the spec requires for truncated input. -/
theorem decrypt_empty_token_raises_indexError :
    testFernet.decrypt (.bytes []) none 0 = .error .indexError ∧
    PyErr.indexError ≠ PyErr.invalidToken :=
  ⟨rfl, by decide⟩

/-- C3: whenever `decrypt` returns a plaintext, the HMAC-SHA256 tag check
over `data[:-32]` against `data[-32:]` under the signing key necessarily
succeeded; no plaintext is returned without it. -/
theorem decrypt_ok_requires_mac (f : Fernet) (tok p : Bytes) (ttl : Option Int) (ct2 : Nat)
    (h : f.decrypt (.bytes tok) ttl ct2 = .ok p) :
    ∃ data, f._backend.b64decode tok = some data ∧
      f._backend.hmacSHA256 f._signing_key (data.take (data.length - 32)) =
        data.drop (data.length - 32) := by
  simp only [Fernet.decrypt] at h
  split at h
  · exact absurd h (by simp)
  · rename_i data hd
    refine ⟨data, hd, ?_⟩
    split at h
    · exact absurd h (by simp)
    · split at h
      · exact absurd h (by simp)
      · split at h
        · exact absurd h (by simp)
        · split at h
          · exact absurd h (by simp)
          · split at h
            · exact absurd h (by simp)
            · split at h
              · exact absurd h (by simp)
              · rename_i hmac_ok
                exact not_ne_iff.mp hmac_ok

/-- C3 witness: a successful concrete decryption, fed to the theorem. -/
theorem decrypt_ok_requires_mac_witness :
    ∃ data,
      testFernet._backend.b64decode (specToken testBackend testFernet._signing_key
        testFernet._encryption_key [2, 3] 5 (List.replicate 16 0)) = some data ∧
      testFernet._backend.hmacSHA256 testFernet._signing_key
          (data.take (data.length - 32)) = data.drop (data.length - 32) :=
  decrypt_ok_requires_mac testFernet
    (specToken testBackend testFernet._signing_key testFernet._encryption_key
      [2, 3] 5 (List.replicate 16 0)) [2, 3] none 7 (by decide)

/-- C4: if the decoded key has length exactly 32, construction succeeds and
the signing key is the first 16 bytes and the encryption key the last 16
bytes, untransformed; any other decoded length fails with the key-length
`ValueError`. -/
theorem init_key_length_split (B : Backend) (key k : Bytes)
    (hdec : B.b64decode key = some k) :
    (k.length = 32 →
      Fernet.init B key = .ok ⟨k.take 16, k.drop 16, B⟩) ∧
    (k.length ≠ 32 → Fernet.init B key = .error .valueError) := by
  constructor
  · intro h32
    rw [Fernet.init, hdec]
    simp [h32]
  · intro hne
    rw [Fernet.init, hdec]
    simp [hne]

/-- C4 witness: a 32-byte key succeeds and splits; a 31-byte key fails. -/
theorem init_key_length_split_witness :
    Fernet.init testBackend (List.replicate 32 7) =
      .ok ⟨(List.replicate 32 7).take 16, (List.replicate 32 7).drop 16, testBackend⟩ ∧
    Fernet.init testBackend (List.replicate 31 7) = .error .valueError :=
  ⟨(init_key_length_split testBackend (List.replicate 32 7) _ rfl).1 (by decide),
   (init_key_length_split testBackend (List.replicate 31 7) _ rfl).2 (by decide)⟩

/-- C5: for a well-formed token with no TTL, `decrypt` yields
`InvalidToken` exactly when `current_time + 60 < timestamp`, and succeeds
with the original plaintext otherwise; the skew bound is the constant 60
of `_MAX_CLOCK_SKEW`. -/
theorem decrypt_future_skew_iff (f : Fernet) (P iv : Bytes) (ts ct2 : Nat) (tok : Bytes)
    (hB64 : ∀ x, f._backend.b64decode (f._backend.b64encode x) = some x)
    (hDE : ∀ b, b.length = 16 →
      f._backend.decBlock f._encryption_key (f._backend.encBlock f._encryption_key b) = b)
    (hElen : ∀ b, b.length = 16 → (f._backend.encBlock f._encryption_key b).length = 16)
    (hHlen : ∀ m, (f._backend.hmacSHA256 f._signing_key m).length = 32)
    (hiv : iv.length = 16) (hts : ts < 2 ^ 64)
    (henc : f.encrypt (.bytes P) ts iv = .ok tok) :
    (f.decrypt (.bytes tok) none ct2 = .error .invalidToken ↔
      ct2 + _MAX_CLOCK_SKEW < ts) ∧
    (¬ ct2 + _MAX_CLOCK_SKEW < ts → f.decrypt (.bytes tok) none ct2 = .ok P) := by
  rw [Fernet.encrypt, encrypt_from_parts_eq f P ts iv hts] at henc
  injection henc with htok
  subst htok
  rw [decrypt_specToken f P iv ts ct2 none hB64 hDE hElen hHlen hiv hts]
  simp only [ttlExpired, Bool.false_eq_true, if_false]
  by_cases hskew : ct2 + _MAX_CLOCK_SKEW < ts
  · simp [hskew]
  · simp [hskew]

/-- C5 witness: timestamp 61 seconds ahead fails, 59 seconds ahead
succeeds, at decoder time 0. -/
theorem decrypt_future_skew_iff_witness :
    testFernet.decrypt (.bytes (specToken testBackend testFernet._signing_key
      testFernet._encryption_key [1] 61 (List.replicate 16 0))) none 0 =
      .error .invalidToken ∧
    testFernet.decrypt (.bytes (specToken testBackend testFernet._signing_key
      testFernet._encryption_key [1] 59 (List.replicate 16 0))) none 0 = .ok [1] :=
  ⟨((decrypt_future_skew_iff testFernet [1] (List.replicate 16 0) 61 0 _
      (fun _ => rfl) (fun _ _ => rfl) (fun _ hb => hb) (fun _ => rfl) rfl
      (by norm_num) rfl).1).mpr (by decide),
   (decrypt_future_skew_iff testFernet [1] (List.replicate 16 0) 59 0 _
      (fun _ => rfl) (fun _ _ => rfl) (fun _ hb => hb) (fun _ => rfl) rfl
      (by norm_num) rfl).2 (by decide)⟩

/-- C6: with a supplied TTL, a well-formed token fails with `InvalidToken`
exactly when `timestamp + ttl < current_time` and otherwise decrypts; with
no TTL no age check is applied, so arbitrarily old tokens decrypt. -/
theorem decrypt_ttl_expiry (f : Fernet) (P iv : Bytes) (ts ct2 : Nat) (tok : Bytes)
    (hB64 : ∀ x, f._backend.b64decode (f._backend.b64encode x) = some x)
    (hDE : ∀ b, b.length = 16 →
      f._backend.decBlock f._encryption_key (f._backend.encBlock f._encryption_key b) = b)
    (hElen : ∀ b, b.length = 16 → (f._backend.encBlock f._encryption_key b).length = 16)
    (hHlen : ∀ m, (f._backend.hmacSHA256 f._signing_key m).length = 32)
    (hiv : iv.length = 16) (hts : ts < 2 ^ 64) (hle : ts ≤ ct2)
    (henc : f.encrypt (.bytes P) ts iv = .ok tok) :
    (∀ v : Int, (ts : Int) + v < (ct2 : Int) →
      f.decrypt (.bytes tok) (some v) ct2 = .error .invalidToken) ∧
    (∀ v : Int, (ct2 : Int) ≤ (ts : Int) + v →
      f.decrypt (.bytes tok) (some v) ct2 = .ok P) ∧
    f.decrypt (.bytes tok) none ct2 = .ok P := by
  rw [Fernet.encrypt, encrypt_from_parts_eq f P ts iv hts] at henc
  injection henc with htok
  subst htok
  have hskew : ¬ ct2 + _MAX_CLOCK_SKEW < ts := by
    simp only [_MAX_CLOCK_SKEW]
    omega
  refine ⟨?_, ?_, ?_⟩
  · intro v hv
    rw [decrypt_specToken f P iv ts ct2 (some v) hB64 hDE hElen hHlen hiv hts]
    simp only [ttlExpired, decide_eq_true_eq]
    rw [if_pos hv]
  · intro v hv
    rw [decrypt_specToken f P iv ts ct2 (some v) hB64 hDE hElen hHlen hiv hts]
    have hnv : ¬ ((ts : Int) + v < (ct2 : Int)) := not_lt.mpr hv
    simp only [ttlExpired, decide_eq_true_eq]
    rw [if_neg hnv, if_neg hskew]
  · rw [decrypt_specToken f P iv ts ct2 none hB64 hDE hElen hHlen hiv hts]
    simp only [ttlExpired, Bool.false_eq_true, if_false]
    rw [if_neg hskew]

/-- C6 witness: a token 100 seconds old fails with ttl 50, succeeds with
ttl 200, and succeeds with no TTL. -/
theorem decrypt_ttl_expiry_witness :
    testFernet.decrypt (.bytes (specToken testBackend testFernet._signing_key
      testFernet._encryption_key [4] 0 (List.replicate 16 0))) (some 50) 100 =
      .error .invalidToken ∧
    testFernet.decrypt (.bytes (specToken testBackend testFernet._signing_key
      testFernet._encryption_key [4] 0 (List.replicate 16 0))) (some 200) 100 = .ok [4] ∧
    testFernet.decrypt (.bytes (specToken testBackend testFernet._signing_key
      testFernet._encryption_key [4] 0 (List.replicate 16 0))) none 100 = .ok [4] := by
  obtain ⟨h1, h2, h3⟩ := decrypt_ttl_expiry testFernet [4] (List.replicate 16 0) 0 100 _
    (fun _ => rfl) (fun _ _ => rfl) (fun _ hb => hb) (fun _ => rfl) rfl
    (by norm_num) (by norm_num) rfl
  exact ⟨h1 50 (by norm_num), h2 200 (by norm_num), h3⟩

/-- C7: the encoder's output is exactly the base64 encoding of version
byte `0x80`, 8-byte big-endian timestamp, iv, CBC ciphertext of the
PKCS7-padded plaintext, and the HMAC-SHA256 tag over all preceding bytes,
matching the spec-side layout `specToken`; identical inputs therefore give
byte-identical output. -/
theorem encrypt_token_layout (f : Fernet) (P : Bytes) (ts : Nat) (iv : Bytes)
    (hts : ts < 2 ^ 64) :
    f._encrypt_from_parts (.bytes P) ts iv =
      .ok (specToken f._backend f._signing_key f._encryption_key P ts iv) :=
  encrypt_from_parts_eq f P ts iv hts

/-- C7 witness: the layout equation at concrete inputs. -/
theorem encrypt_token_layout_witness :
    testFernet._encrypt_from_parts (.bytes [9]) 3 (List.replicate 16 0) =
      .ok (specToken testBackend testFernet._signing_key
        testFernet._encryption_key [9] 3 (List.replicate 16 0)) :=
  encrypt_token_layout testFernet [9] 3 (List.replicate 16 0) (by norm_num)

/-- C8: a unicode (text) value passed as plaintext to encrypt, or as the
token to decrypt, yields `TypeError`, an outcome distinct from
`InvalidToken`. -/
theorem unicode_input_typeError (f : Fernet) (s : String) (ts ct2 : Nat)
    (iv : Bytes) (ttl : Option Int) :
    f.encrypt (.text s) ts iv = .error .typeError ∧
    f._encrypt_from_parts (.text s) ts iv = .error .typeError ∧
    f.decrypt (.text s) ttl ct2 = .error .typeError ∧
    PyErr.typeError ≠ PyErr.invalidToken :=
  ⟨rfl, rfl, rfl, by decide⟩

/-- C9: the key material is unchanged by any encrypt or decrypt call: in
the state-passing translation of the methods (whose bodies contain no
assignment to `self`), the post-state signing key, encryption key and
backend equal the pre-state fields. -/
theorem encrypt_decrypt_preserve_key_material (f : Fernet) (d tok : PyData)
    (ts ct2 : Nat) (iv : Bytes) (ttl : Option Int) :
    ((f.encryptS d ts iv).2._signing_key = f._signing_key ∧
     (f.encryptS d ts iv).2._encryption_key = f._encryption_key ∧
     (f.encryptS d ts iv).2._backend = f._backend) ∧
    ((f.decryptS tok ttl ct2).2._signing_key = f._signing_key ∧
     (f.decryptS tok ttl ct2).2._encryption_key = f._encryption_key ∧
     (f.decryptS tok ttl ct2).2._backend = f._backend) :=
  ⟨⟨rfl, rfl, rfl⟩, ⟨rfl, rfl, rfl⟩⟩

/-- C10: a token whose timestamp is exactly `current_time + 60` is
accepted: the skew check rejects only strictly greater timestamps. -/
theorem decrypt_skew_boundary_accepts (f : Fernet) (P iv : Bytes) (ct2 : Nat) (tok : Bytes)
    (hB64 : ∀ x, f._backend.b64decode (f._backend.b64encode x) = some x)
    (hDE : ∀ b, b.length = 16 →
      f._backend.decBlock f._encryption_key (f._backend.encBlock f._encryption_key b) = b)
    (hElen : ∀ b, b.length = 16 → (f._backend.encBlock f._encryption_key b).length = 16)
    (hHlen : ∀ m, (f._backend.hmacSHA256 f._signing_key m).length = 32)
    (hiv : iv.length = 16) (hts : ct2 + 60 < 2 ^ 64)
    (henc : f.encrypt (.bytes P) (ct2 + 60) iv = .ok tok) :
    f.decrypt (.bytes tok) none ct2 = .ok P := by
  rw [Fernet.encrypt, encrypt_from_parts_eq f P (ct2 + 60) iv hts] at henc
  injection henc with htok
  subst htok
  rw [decrypt_specToken f P iv (ct2 + 60) ct2 none hB64 hDE hElen hHlen hiv hts]
  simp only [ttlExpired, Bool.false_eq_true, if_false]
  rw [if_neg (by simp [_MAX_CLOCK_SKEW])]

/-- C10 witness: timestamp 60 at decoder time 0 is accepted. -/
theorem decrypt_skew_boundary_accepts_witness :
    testFernet.decrypt (.bytes (specToken testBackend testFernet._signing_key
      testFernet._encryption_key [8] 60 (List.replicate 16 0))) none 0 = .ok [8] :=
  decrypt_skew_boundary_accepts testFernet [8] (List.replicate 16 0) 0 _
    (fun _ => rfl) (fun _ _ => rfl) (fun _ hb => hb) (fun _ => rfl) rfl
    (by norm_num) rfl

end FernetSpec
